import Mathlib

/-!
Verification of the file-discovery and replication engine of
`file_copy_manager.py` (class `FileCopyManager`).

The filesystem is modelled shallowly: a directory is addressed by its path
relative to a source root (a `List String` of components), and a filesystem
is a pair of listing functions (subdirectory names and file names of a
directory).  Finite concrete filesystems are built from an inductive tree
`FSTree`; the search engine itself is defined over the abstract `FSModel`
interface so that unbounded (even infinite) directory graphs can be
expressed, which the visit cap of `find_source_files` must protect against.

All definitions mirror `src/file_copy_manager.py`; line references are given
at each definition.
-/

namespace FCM

/-- A path relative to a source root: directory components, possibly followed
by a file name as the last component. -/
abbrev Path := List String

/-- Abstract filesystem interface: what `pathlib` provides to the engine.
`subdirNames p` lists the names of subdirectories of directory `p`
(`current_dir.iterdir()` filtered by `is_dir()`), and `fileNames p` lists the
plain-file names in `p`.  A file-existence test (`Path.exists()` plus
`is_file()`) is membership in `fileNames`. -/
structure FSModel where
  subdirNames : Path → List String
  fileNames : Path → List String

/-- Existence test for a file named `n` in directory `p`
(`(p / n).exists() and (p / n).is_file()`). -/
def FSModel.hasFile (fs : FSModel) (p : Path) (n : String) : Bool :=
  (fs.fileNames p).contains n

/-- The CAD extension allowlist of `find_source_files`
(file_copy_manager.py line 165). -/
def extensions : List String :=
  ["dwg", "dxf", "step", "stp", "iges", "igs", "sat", "3dm",
   "catpart", "catproduct", "prt", "asm"]

/-- ASCII upper-casing of a character, modelling Python `str.upper` on the
ASCII extension allowlist. -/
def upperChar (c : Char) : Char :=
  if ('a' ≤ c && c ≤ 'z') then Char.ofNat (c.toNat - 32) else c

/-- ASCII upper-casing of a string (`ext.upper()`). -/
def upperStr (s : String) : String :=
  String.mk (s.data.map upperChar)

/-- The candidate exact file names checked for a product: for each allowed
extension, the lower-case and the upper-case variant, in the order the code
tests them (lines 173-185 and 216-228). -/
def candidateNames (product : String) : List String :=
  extensions.flatMap (fun e =>
    [product ++ "." ++ e, product ++ "." ++ upperStr e])

/-- The exact-name existence pass scoped to one directory: the loop bodies of
lines 173-185 (root) and 216-228 (breadth-first search), which append the
full path of every candidate name that exists in the directory, in candidate
order. -/
def exactMatchesIn (fs : FSModel) (product : String) (dir : Path) : List Path :=
  let names := fs.fileNames dir
  (candidateNames product).filterMap (fun n =>
    if names.contains n then some (dir ++ [n]) else none)

/-- The bounded breadth-first traversal of lines 204-247.  The queue holds
`(directory, depth)` pairs; `fuel` is `max_dirs - searched_count`, so one
unit of fuel is consumed per loop iteration (each iteration pops exactly one
queue entry and increments `searched_count`).  A popped directory at depth
`≥ 7` (`max_depth`) is skipped; otherwise its exact matches are appended to
`found` and, if its depth is `< 6` (`max_depth - 1`), its subdirectories are
appended to the queue at depth `+ 1`.  The returned `Nat` is the final
`searched_count`. -/
def bfsLoop (fs : FSModel) (product : String) :
    Nat → List (Path × Nat) → List Path → Nat → List Path × Nat
  | 0, _, found, c => (found, c)
  | _ + 1, [], found, c => (found, c)
  | fuel + 1, (dir, depth) :: rest, found, c =>
    if 7 ≤ depth then bfsLoop fs product fuel rest found (c + 1)
    else
      let found2 := found ++ exactMatchesIn fs product dir
      let queue2 :=
        if depth < 6 then
          rest ++ (fs.subdirNames dir).map (fun n => (dir ++ [n], depth + 1))
        else rest
      bfsLoop fs product fuel queue2 found2 (c + 1)

/-- Strategy 2 of `find_source_files` run from a source root: the queue is
initialised with the root at depth 0, `searched_count` with 0, and the fuel
with `max_dirs = 500` (lines 200-204). -/
def bfsSearch (fs : FSModel) (product : String) : List Path × Nat :=
  bfsLoop fs product 500 [([], 0)] [] 0

/-- The list of directories the breadth-first loop processes (pops and does
not skip for depth), in processing order.  It evolves the queue exactly as
`bfsLoop` does, and is independent of which files match. -/
def bfsVisits (fs : FSModel) : Nat → List (Path × Nat) → List Path
  | 0, _ => []
  | _ + 1, [] => []
  | fuel + 1, (dir, depth) :: rest =>
    if 7 ≤ depth then bfsVisits fs fuel rest
    else
      dir ::
        bfsVisits fs fuel
          (if depth < 6 then
            rest ++ (fs.subdirNames dir).map (fun n => (dir ++ [n], depth + 1))
          else rest)

/-- Containment of one character sequence in another, used to model the glob
pattern `*product*`. -/
def containsSeq (pat l : List Char) : Bool :=
  l.tails.any (fun t => pat.isPrefixOf t)

/-- Whether the file name `name` matches the glob pattern
`*product*.ext` (a literal dot and extension at the end, the product name
anywhere before it), as used by the partial-name fallback
(lines 256-270 and 277-284). -/
def globPartialMatch (product ext name : String) : Bool :=
  let suffix := ("." ++ ext).data
  suffix.isSuffixOf name.data &&
    containsSeq product.data (name.data.take (name.data.length - suffix.length))

/-- One glob pass of the partial-name fallback: append, in listing order,
every file of `dir` matching `*product*.ext` that is not already in `found`
(the `match not in found_files` dedup of lines 260 and 268). -/
def globAdd (fs : FSModel) (product ext : String) (dir : Path)
    (found : List Path) : List Path :=
  (fs.fileNames dir).foldl
    (fun acc n =>
      if globPartialMatch product ext n && !(acc.contains (dir ++ [n])) then
        acc ++ [dir ++ [n]]
      else acc)
    found

/-- The first-level-subdirectory part of the partial-name fallback
(lines 273-290): at most the first 10 subdirectories of the root, each
scanned with the lower-case patterns only, stopping at the first
subdirectory after which `found_files` is non-empty. -/
def strategy3Subdirs (fs : FSModel) (product : String) :
    List String → List Path → List Path
  | [], found => found
  | d :: rest, found =>
    let found2 := extensions.foldl (fun acc e => globAdd fs product e [d] acc) found
    if found2.isEmpty then strategy3Subdirs fs product rest found2 else found2

/-- Strategy 3 of `find_source_files` (lines 251-296): glob the root with
lower- and upper-case patterns for each extension; only if that yields
nothing, glob the first 10 first-level subdirectories. -/
def strategy3 (fs : FSModel) (product : String) : List Path :=
  let afterRoot :=
    extensions.foldl
      (fun acc e => globAdd fs product (upperStr e) [] (globAdd fs product e [] acc)) []
  if afterRoot.isEmpty then
    strategy3Subdirs fs product ((fs.subdirNames []).take 10) []
  else afterRoot

/-- The source-path loop of `find_source_files` (lines 168-301).  Each root
is a labelled filesystem; returned paths are prefixed with the root label
(standing for the absolute root path).  After the root-level exact pass the
code does `continue` when `found_files` is non-empty (line 192), so
root-level matches accumulate across roots; only after strategies 2-3 does a
non-empty `found_files` `break` the loop (line 299). -/
def searchRoots (product : String) :
    List (String × FSModel) → List Path → List Path
  | [], found => found
  | (lbl, fs) :: rest, found =>
    let found1 := found ++ (exactMatchesIn fs product []).map (fun p => lbl :: p)
    if found1.isEmpty then
      let found2 := (bfsSearch fs product).1.map (fun p => lbl :: p)
      let found3 :=
        if found2.isEmpty then (strategy3 fs product).map (fun p => lbl :: p)
        else found2
      if found3.isEmpty then searchRoots product rest found3 else found3
    else searchRoots product rest found1

/-- The whole of `FileCopyManager.find_source_files` (lines 156-311) over a
list of labelled source roots. -/
def findSourceFiles (product : String) (roots : List (String × FSModel)) :
    List Path :=
  searchRoots product roots []

/-- A finite filesystem tree: the files of a directory and its named
subdirectories. -/
inductive FSTree where
  | node : List String → List (String × FSTree) → FSTree

/-- Resolve a relative path inside a tree. -/
def FSTree.lookup : FSTree → Path → Option FSTree
  | t, [] => some t
  | FSTree.node _ ds, n :: p =>
    match ds.find? (fun x => x.1 == n) with
    | some x => FSTree.lookup x.2 p
    | none => none

/-- View a finite tree through the abstract filesystem interface. -/
def FSTree.toModel (t : FSTree) : FSModel where
  subdirNames p :=
    match t.lookup p with
    | some (FSTree.node _ ds) => ds.map (fun x => x.1)
    | none => []
  fileNames p :=
    match t.lookup p with
    | some (FSTree.node fls _) => fls
    | none => []

/-- Number of directories of a tree at depth at most `k` (the tree's root
included). -/
def dirCountToDepth : Nat → FSTree → Nat
  | 0, _ => 1
  | k + 1, FSTree.node _ ds => 1 + (ds.map (fun x => dirCountToDepth k x.2)).sum

/-- Well-formedness of a tree down to depth `k`: sibling subdirectory names
are distinct, as they are on a real filesystem. -/
def wfTo : Nat → FSTree → Bool
  | 0, _ => true
  | k + 1, FSTree.node _ ds =>
    decide (ds.map (fun x => x.1)).Nodup && ds.all (fun x => wfTo k x.2)

/-- All directory paths of a tree down to depth `k`, the root (empty path)
included. -/
def allDirsTo : Nat → FSTree → List Path
  | 0, _ => [[]]
  | k + 1, FSTree.node _ ds =>
    [] :: ds.flatMap (fun x => (allDirsTo k x.2).map (fun p => x.1 :: p))

/-- Whether a file name is one of the exact candidate names for a product
(an exact match for some allowed extension, lower- or upper-case). -/
def isExactNameFor (product name : String) : Bool :=
  extensions.any (fun e =>
    name == product ++ "." ++ e || name == product ++ "." ++ upperStr e)

/-- Whether a file name can be matched by any strategy of
`find_source_files` for a product: an exact candidate name, or a glob
partial match for some allowed extension (lower- or upper-case). -/
def matchableNameFor (product name : String) : Bool :=
  isExactNameFor product name ||
    extensions.any (fun e =>
      globPartialMatch product e name || globPartialMatch product (upperStr e) name)

/-- A source root with 501 first-level subdirectories, the matching file
sitting in the last of them (at depth 2).  Breadth-first order visits the
root and then the subdirectories in listing order, so the 500-directory
visit cap is exhausted one directory short of `d500`. -/
def wideFS : FSModel where
  subdirNames p := if p = [] then (List.range 501).map (fun i => "d" ++ toString i) else []
  fileNames p := if p = ["d500"] then ["X.dwg"] else []

/-- The subtree of a tree at a path, defaulting to an empty directory. -/
def subtreeD (t : FSTree) (p : Path) : FSTree :=
  (FSTree.lookup t p).getD (FSTree.node [] [])

/-- Well-formedness of one breadth-first queue entry over a tree: the
directory exists, and the stored depth is the path length, at most 6. -/
def entryOk (t : FSTree) (e : Path × Nat) : Prop :=
  (FSTree.lookup t e.1).isSome = true ∧ e.2 = e.1.length ∧ e.2 ≤ 6

/-- Potential of one queue entry: the number of directories of its subtree
the traversal may still process. -/
def entryPot (t : FSTree) (e : Path × Nat) : Nat :=
  dirCountToDepth (6 - e.2) (subtreeD t e.1)

/-- Potential of a breadth-first queue: the number of loop iterations needed
to drain it.  It decreases by exactly one per iteration. -/
def qpot (t : FSTree) (q : List (Path × Nat)) : Nat :=
  (q.map (entryPot t)).sum

/-- Thickness normalization of `create_destination_folder`
(file_copy_manager.py line 316): keep exactly the characters that are digits
or a decimal point, and substitute the sentinel `"unknown"` when nothing
remains (lines 318-319).  Python `str.isdigit` is modelled by `Char.isDigit`
(ASCII digits). -/
def normalizeThickness (thickness : String) : String :=
  let cleaned := String.mk (thickness.data.filter (fun c => c.isDigit || c == '.'))
  if cleaned = "" then "unknown" else cleaned

/-- The destination directory computed by `create_destination_folder`
(line 321): `destination_base / material / clean_thickness`, as a component
path. -/
def createDestinationFolder (base : Path) (material thickness : String) : Path :=
  base ++ [material, normalizeThickness thickness]

/-- The base name of a source file path (`source_file.name`). -/
def baseName (f : Path) : String :=
  f.getLastD ""

/-- The destination file names generated for one source file by
`copy_files_based_on_quantity` (lines 339-356): the unmodified base name for
quantity 1, and `"1_<name>"` .. `"<quantity>_<name>"` otherwise
(`f"{i}_{source_file.name}"` for `i in range(1, quantity + 1)`). -/
def destNamesFor (f : Path) (quantity : Nat) : List String :=
  if quantity = 1 then [baseName f]
  else (List.range' 1 quantity).map (fun i => toString i ++ "_" ++ baseName f)

/-- The inner copy loop for one source file, with the surrounding
`try/except` of lines 338-360: each destination name is attempted in order
through the I/O oracle `copyOk`; the first failure raises, which aborts the
remaining names of this file and tallies one error.  Returns
`(successful copies, errors, attempted (source, destination-name) pairs)`. -/
def copyOrdinals (copyOk : Path → String → Bool) (f : Path) :
    List String → Nat × Nat × List (Path × String)
  | [] => (0, 0, [])
  | n :: rest =>
    if copyOk f n then
      let r := copyOrdinals copyOk f rest
      (r.1 + 1, r.2.1, (f, n) :: r.2.2)
    else (0, 1, [(f, n)])

/-- The whole of `copy_files_based_on_quantity` (lines 332-362): the outer
loop over source files, each file processed by `copyOrdinals` on its
generated destination names.  Returns the final
`(copied_count, errors increment, attempted copy operations)`. -/
def copyFilesBasedOnQuantity (copyOk : Path → String → Bool)
    (files : List Path) (quantity : Nat) : Nat × Nat × List (Path × String) :=
  match files with
  | [] => (0, 0, [])
  | f :: rest =>
    let r1 := copyOrdinals copyOk f (destNamesFor f quantity)
    let r2 := copyFilesBasedOnQuantity copyOk rest quantity
    (r1.1 + r2.1, r1.2.1 + r2.2.1, r1.2.2 ++ r2.2.2)

/-- The contents of the destination directory after executing the attempted
copies on an initial listing: `shutil.copy2` overwrites an existing
destination file in place (documented stdlib semantics), so a name already
present is replaced rather than duplicated, skipped or renamed. -/
def applyCopies (attempts : List (Path × String)) (initial : List String) :
    List String :=
  attempts.foldl
    (fun d a => if d.contains a.2 then d else d ++ [a.2]) initial

/-- Truncating decimal parse modelling Python `int(float(s))` on plain
decimal numerals (optional sign, digits, optional fractional part): the
fractional digits are discarded, truncating toward zero; anything outside
this grammar raises `ValueError`, modelled as `none`. -/
def parseDecimalTrunc (s : String) : Option Int :=
  let signed : Int × List Char :=
    match s.data with
    | '-' :: cs => (-1, cs)
    | '+' :: cs => (1, cs)
    | cs => (1, cs)
  let intPart := signed.2.takeWhile Char.isDigit
  let after := signed.2.drop intPart.length
  let value : Int := signed.1 * (intPart.foldl (fun a c => a * 10 + (c.toNat - 48)) 0 : Nat)
  match after with
  | [] => if intPart.isEmpty then none else some value
  | '.' :: frac =>
    if frac.all Char.isDigit && !(intPart.isEmpty && frac.isEmpty) then some value
    else none
  | _ => none

/-- The quantity parse of `process_row` (line 410):
`int(float(quantity_str)) if quantity_str else 0`, with `ValueError`
(modelled by `none`) caught by the surrounding handler. -/
def parsePyQuantity (s : String) : Option Int :=
  if s = "" then some 0 else parseDecimalTrunc s

/-- Whitespace stripping from both ends, modelling Python `str.strip()`. -/
def pyStrip (s : String) : String :=
  String.mk
    (((s.data.dropWhile Char.isWhitespace).reverse.dropWhile Char.isWhitespace).reverse)

/-- Counter deltas applied to `self.stats` by one call. -/
structure Stats where
  processed : Nat
  copied : Nat
  notFound : Nat
  errors : Nat
deriving DecidableEq

/-- The observable outcome of one `process_row` call: counter deltas,
whether a file search ran, whether destination-folder creation was
attempted, and the attempted copy operations. -/
structure RowOutcome where
  stats : Stats
  searched : Bool
  mkdirAttempted : Bool
  attempts : List (Path × String)
deriving DecidableEq

/-- The outcome of a row that is skipped during validation: no counter
changes and no filesystem effects. -/
def noopOutcome : RowOutcome :=
  ⟨⟨0, 0, 0, 0⟩, false, false, []⟩

/-- The whole of `FileCopyManager.process_row` (lines 391-445), with its
collaborators abstracted: `locate` stands for `find_source_files`, `mkdirOk`
for whether `create_destination_folder` raises, and `copyOk` for the
per-copy I/O outcome inside `copy_files_based_on_quantity`.  Fields are
stripped as on lines 393-395; validation returns early with no side effects
(lines 400-418); `files_processed` is incremented on line 420, before the
search; an empty search increments `files_not_found` (line 427); a failing
destination-folder creation increments `errors` (line 435); otherwise the
copy runs and its count lands in `files_copied` (line 440). -/
def processRow (locate : String → List Path) (mkdirOk : Bool)
    (copyOk : Path → String → Bool)
    (productRaw thicknessRaw quantityRaw : String) : RowOutcome :=
  let product := pyStrip productRaw
  let thickness := pyStrip thicknessRaw
  let quantityStr := pyStrip quantityRaw
  if product = "" then noopOutcome
  else if thickness = "" then noopOutcome
  else
    match parsePyQuantity quantityStr with
    | none => noopOutcome
    | some q =>
      if q < 1 then noopOutcome
      else
        let files := locate product
        if files.isEmpty then ⟨⟨1, 0, 1, 0⟩, true, false, []⟩
        else if !mkdirOk then ⟨⟨1, 0, 0, 1⟩, true, true, []⟩
        else
          let r := copyFilesBasedOnQuantity copyOk files q.toNat
          ⟨⟨1, r.1, 0, r.2.1⟩, true, true, r.2.2⟩

/-- The root-level exact matches of every root in order, each prefixed with
its root label.  Spec-side helper used to describe how `find_source_files`
accumulates root-level matches across roots. -/
def allRootLevelMatches (product : String) (roots : List (String × FSModel)) :
    List Path :=
  roots.flatMap (fun r => (exactMatchesIn r.2 product []).map (fun p => r.1 :: p))

/-- Description of the search outcome, written from the spec's
first-root-wins wording and then corrected to what the code does: the first
root with any match decides the result, except that a root-level match does
not stop the root loop — every later root still contributes its root-level
matches. -/
def firstWinsSpec (product : String) : List (String × FSModel) → List Path
  | [] => []
  | (lbl, fs) :: rest =>
    let s1 := (exactMatchesIn fs product []).map (fun p => lbl :: p)
    if s1.isEmpty then
      let s2 := ((bfsSearch fs product).1).map (fun p => lbl :: p)
      if s2.isEmpty then
        let s3 := (strategy3 fs product).map (fun p => lbl :: p)
        if s3.isEmpty then firstWinsSpec product rest else s3
      else s2
    else s1 ++ allRootLevelMatches product rest

/-- All destination file names generated by one copy plan, per source file
in order. -/
def plannedDestNames (files : List Path) (quantity : Nat) : List String :=
  files.flatMap (fun f => destNamesFor f quantity)

/-- C5: thickness normalization keeps exactly the digit and decimal-point
characters of the input in order, substitutes the sentinel `"unknown"` when
no such character remains, maps `"1.5mm"` to `"1.5"` and `""`, `"abc"` to
`"unknown"`, and the destination directory is
`<base>/<material>/<normalized-thickness>`. -/
theorem c5_thickness_normalization :
    (∀ t : String,
      (normalizeThickness t).data = t.data.filter (fun c => c.isDigit || c == '.') ∨
        (normalizeThickness t = "unknown" ∧
          t.data.filter (fun c => c.isDigit || c == '.') = [])) ∧
    normalizeThickness "1.5mm" = "1.5" ∧
    normalizeThickness "" = "unknown" ∧
    normalizeThickness "abc" = "unknown" ∧
    ∀ (base : Path) (material t : String),
      createDestinationFolder base material t =
        base ++ [material, normalizeThickness t] := by
  refine ⟨?_, by decide, by decide, by decide, fun base material t => rfl⟩
  intro t
  by_cases h : t.data.filter (fun c => c.isDigit || c == '.') = []
  · right
    refine ⟨?_, h⟩
    simp only [normalizeThickness, h]
    rfl
  · left
    have hne : String.mk (t.data.filter (fun c => c.isDigit || c == '.')) ≠ "" := by
      intro hc
      exact h (congrArg String.data hc)
    simp only [normalizeThickness, if_neg hne]

/-- C8: a record whose stripped product name or thickness is empty, whose
quantity string does not parse as a decimal numeral, or whose parsed
quantity is below 1, is a complete no-op: no counter moves, no search runs,
no destination directory or copy is attempted; the parse truncates toward
zero, so `"2.0"` parses to `2`. -/
theorem c8_invalid_row_no_side_effects
    (locate : String → List Path) (mkdirOk : Bool) (copyOk : Path → String → Bool)
    (productRaw thicknessRaw quantityRaw : String)
    (h : pyStrip productRaw = "" ∨ pyStrip thicknessRaw = "" ∨
      parsePyQuantity (pyStrip quantityRaw) = none ∨
      ∃ q, parsePyQuantity (pyStrip quantityRaw) = some q ∧ q < 1) :
    processRow locate mkdirOk copyOk productRaw thicknessRaw quantityRaw = noopOutcome ∧
      parsePyQuantity "2.0" = some 2 := by
  refine ⟨?_, by decide⟩
  by_cases hp : pyStrip productRaw = ""
  · simp [processRow, hp]
  · by_cases ht : pyStrip thicknessRaw = ""
    · simp [processRow, hp, ht]
    · rcases h with h | h | h | ⟨q, hq, hlt⟩
      · exact absurd h hp
      · exact absurd h ht
      · simp [processRow, hp, ht, h]
      · simp [processRow, hp, ht, hq, hlt]

/-- Witness for C8 at a concrete input: the quantity string `"abc"` does not
parse, and the row is processed with no side effects. -/
theorem c8_invalid_row_no_side_effects_witness :
    (pyStrip "P" = "" ∨ pyStrip "2" = "" ∨ parsePyQuantity (pyStrip "abc") = none ∨
      ∃ q, parsePyQuantity (pyStrip "abc") = some q ∧ q < 1) ∧
    (processRow (fun _ => [["f.dwg"]]) true (fun _ _ => true) "P" "2" "abc" = noopOutcome ∧
      parsePyQuantity "2.0" = some 2) :=
  ⟨Or.inr (Or.inr (Or.inl (by decide))),
   c8_invalid_row_no_side_effects (fun _ => [["f.dwg"]]) true (fun _ _ => true)
     "P" "2" "abc" (Or.inr (Or.inr (Or.inl (by decide))))⟩

/-- The breadth-first loop returns the initial accumulator followed by the
exact matches of every directory it processes, in processing order. -/
theorem bfsLoop_found_eq (fs : FSModel) (product : String) :
    ∀ (fuel : Nat) (queue : List (Path × Nat)) (found : List Path) (c : Nat),
      (bfsLoop fs product fuel queue found c).1 =
        found ++ (bfsVisits fs fuel queue).flatMap (exactMatchesIn fs product) := by
  intro fuel
  induction fuel with
  | zero => intro queue found c; simp [bfsLoop, bfsVisits]
  | succ n ih =>
    intro queue found c
    cases queue with
    | nil => simp [bfsLoop, bfsVisits]
    | cons e rest =>
      obtain ⟨dir, depth⟩ := e
      by_cases h : 7 ≤ depth
      · simp [bfsLoop, bfsVisits, h, ih]
      · simp [bfsLoop, bfsVisits, h, ih, List.append_assoc]

/-- C2 (amended): the breadth-first pass does not stop when a directory
yields a match.  The set of directories it processes (`bfsVisits`) is
determined by the tree shape and the depth/visit caps alone — it does not
depend on the product or on which files match — and the returned matches
are the concatenation of the exact matches of every processed directory,
across all visited depth levels. -/
theorem c2_bfs_no_short_circuit (fs : FSModel) (product : String) :
    (bfsSearch fs product).1 =
      (bfsVisits fs 500 [([], 0)]).flatMap (exactMatchesIn fs product) :=
  bfsLoop_found_eq fs product 500 [([], 0)] [] 0

/-- Counterexample to C2 as stated: with a match in directory `s` at depth 1
and another in `s/t` at depth 2, the search returns both, so traversal did
not stop at the first depth level with a match. -/
theorem c2_counterexample :
    findSourceFiles "X"
      [("r", (FSTree.node []
        [("s", FSTree.node ["X.dwg"] [("t", FSTree.node ["X.dwg"] [])])]).toModel)] =
      [["r", "s", "X.dwg"], ["r", "s", "t", "X.dwg"]] := by decide

/-- The final `searched_count` of the breadth-first loop exceeds its initial
value by at most the available fuel. -/
theorem bfsLoop_count_le (fs : FSModel) (product : String) :
    ∀ (fuel : Nat) (queue : List (Path × Nat)) (found : List Path) (c : Nat),
      (bfsLoop fs product fuel queue found c).2 ≤ c + fuel := by
  intro fuel
  induction fuel with
  | zero => intro queue found c; simp [bfsLoop]
  | succ n ih =>
    intro queue found c
    cases queue with
    | nil => simp [bfsLoop]
    | cons e rest =>
      obtain ⟨dir, depth⟩ := e
      by_cases h : 7 ≤ depth
      · simp only [bfsLoop, if_pos h]
        exact le_trans (ih rest found (c + 1)) (by omega)
      · simp only [bfsLoop, if_neg h]
        exact le_trans (ih _ _ (c + 1)) (by omega)

/-- C9: on every filesystem — arbitrarily deep or wide, including the
unrolling of cyclic directory graphs, which `FSModel` can express as an
infinite tree of paths — the breadth-first pass of `find_source_files`
terminates with a final `searched_count` of at most `max_dirs = 500`: each
loop iteration pops exactly one queue entry and increments the counter, and
the loop guard stops at the cap. -/
theorem c9_bfs_visit_cap (fs : FSModel) (product : String) :
    (bfsSearch fs product).2 ≤ 500 :=
  bfsLoop_count_le fs product 500 [([], 0)] [] 0

/-- The copy loop for one file attempts exactly the destination names up to
and including the first failing one, counts the successes before that
failure, and tallies one error when a failure occurred. -/
theorem copyOrdinals_eq (copyOk : Path → String → Bool) (f : Path)
    (names : List String) :
    copyOrdinals copyOk f names =
      ((names.takeWhile (copyOk f)).length,
       (if names.all (copyOk f) then 0 else 1),
       (names.take ((names.takeWhile (copyOk f)).length + 1)).map (fun n => (f, n))) := by
  induction names with
  | nil => simp [copyOrdinals]
  | cons n rest ih =>
    by_cases h : copyOk f n
    · simp [copyOrdinals, h, ih, List.takeWhile_cons, List.all_cons]
    · simp [copyOrdinals, h, List.takeWhile_cons, List.all_cons]

/-- Closed-form characterization of `copy_files_based_on_quantity`: per
source file, exactly the destination names up to and including the first
failing one are attempted, the successes before the failure are counted,
and one error is tallied per source file with a failure. -/
theorem copyFiles_spec (copyOk : Path → String → Bool) (files : List Path)
    (quantity : Nat) :
    copyFilesBasedOnQuantity copyOk files quantity =
      ((files.map (fun f =>
          ((destNamesFor f quantity).takeWhile (copyOk f)).length)).sum,
       files.countP (fun f => !(destNamesFor f quantity).all (copyOk f)),
       files.flatMap (fun f =>
         ((destNamesFor f quantity).take
             (((destNamesFor f quantity).takeWhile (copyOk f)).length + 1)).map
           (fun n => (f, n)))) := by
  induction files with
  | nil => simp [copyFilesBasedOnQuantity]
  | cons f rest ih =>
    by_cases h : (destNamesFor f quantity).all (copyOk f)
    · simp [copyFilesBasedOnQuantity, ih, copyOrdinals_eq, List.countP_cons, h]
    · simp [copyFilesBasedOnQuantity, ih, copyOrdinals_eq, List.countP_cons, h,
        Nat.add_comm]

/-- C4 (amended): `copy_files_based_on_quantity` is per-source-file best
effort, but not per-operation: a failing copy is caught and tallied as one
error per failing source file, and the remaining source files of the plan
are still attempted in full — yet the remaining ordinal copies of the very
file whose copy failed are abandoned, because the exception handler sits
outside the ordinal loop.  For each file exactly the destination names up
to and including its first failing one are attempted, the successes before
the failure are counted, and other files are unaffected. -/
theorem c4_per_file_abort (copyOk : Path → String → Bool) (files : List Path)
    (quantity : Nat) :
    copyFilesBasedOnQuantity copyOk files quantity =
      ((files.map (fun f =>
          ((destNamesFor f quantity).takeWhile (copyOk f)).length)).sum,
       files.countP (fun f => !(destNamesFor f quantity).all (copyOk f)),
       files.flatMap (fun f =>
         ((destNamesFor f quantity).take
             (((destNamesFor f quantity).takeWhile (copyOk f)).length + 1)).map
           (fun n => (f, n)))) :=
  copyFiles_spec copyOk files quantity

/-- Counterexample to C4 as stated: one source file, quantity 3, the copy of
ordinal 1 fails.  Only the first ordinal is attempted — the remaining
ordinal copies of the failing file are not — one error is tallied and
nothing is copied. -/
theorem c4_counterexample :
    copyFilesBasedOnQuantity (fun _ n => !(n == "1_a.dwg")) [["s", "a.dwg"]] 3 =
        (0, 1, [(["s", "a.dwg"], "1_a.dwg")]) ∧
      (["s", "a.dwg"], "2_a.dwg") ∉
        (copyFilesBasedOnQuantity (fun _ n => !(n == "1_a.dwg")) [["s", "a.dwg"]] 3).2.2 := by
  decide

/-- Membership in the destination directory after a copy plan runs: a name
is present exactly when it was present initially or is the destination name
of some attempted copy — copies onto an existing name replace it and never
fail, skip or rename. -/
theorem applyCopies_mem (attempts : List (Path × String)) :
    ∀ (initial : List String) (x : String),
      x ∈ applyCopies attempts initial ↔ x ∈ initial ∨ x ∈ attempts.map Prod.snd := by
  induction attempts with
  | nil => intro initial x; simp [applyCopies]
  | cons a rest ih =>
    intro initial x
    by_cases h : initial.contains a.2
    · have ha : a.2 ∈ initial := List.elem_iff.mp h
      simp only [applyCopies, List.foldl_cons, if_pos h]
      rw [show List.foldl (fun d b => if d.contains b.2 then d else d ++ [b.2]) initial rest
            = applyCopies rest initial from rfl, ih]
      simp only [List.map_cons, List.mem_cons]
      constructor
      · rintro (hx | hx)
        · exact Or.inl hx
        · exact Or.inr (Or.inr hx)
      · rintro (hx | hx | hx)
        · exact Or.inl hx
        · exact Or.inl (hx ▸ ha)
        · exact Or.inr hx
    · simp only [applyCopies, List.foldl_cons, if_neg h]
      rw [show List.foldl (fun d b => if d.contains b.2 then d else d ++ [b.2])
            (initial ++ [a.2]) rest = applyCopies rest (initial ++ [a.2]) from rfl, ih]
      simp only [List.mem_append, List.mem_singleton, List.map_cons, List.mem_cons]
      tauto

/-- Helper: a `takeWhile` with an always-true predicate keeps the whole
list. -/
theorem takeWhile_fun_true {α : Type} (l : List α) :
    l.takeWhile (fun _ => true) = l := by
  induction l with
  | nil => rfl
  | cons a rest ih => simp [List.takeWhile_cons, ih]

/-- Helper: a `flatMap` of singletons is a `map`. -/
theorem flatMap_single {α β : Type} (l : List α) (g : α → β) :
    l.flatMap (fun x => [g x]) = l.map g := by
  induction l with
  | nil => rfl
  | cons a rest ih => simp [ih]

/-- Helper: summing the constant 1 over a list counts its length. -/
theorem sum_map_one {α : Type} (l : List α) :
    (l.map (fun _ => (1 : Nat))).sum = l.length := by
  induction l with
  | nil => rfl
  | cons a rest ih => simp [ih, Nat.add_comm]

/-- The destination directory listing stays duplicate-free as a copy plan
runs over it. -/
theorem applyCopies_nodup (attempts : List (Path × String)) :
    ∀ initial : List String, initial.Nodup → (applyCopies attempts initial).Nodup := by
  induction attempts with
  | nil => intro initial h; simpa [applyCopies] using h
  | cons a rest ih =>
    intro initial h
    by_cases hc : initial.contains a.2
    · simpa only [applyCopies, List.foldl_cons, if_pos hc] using ih initial h
    · have ha : a.2 ∉ initial := fun hm => hc (List.elem_iff.mpr hm)
      have hrw : applyCopies (a :: rest) initial = applyCopies rest (initial ++ [a.2]) := by
        simp only [applyCopies, List.foldl_cons, if_neg hc]
      rw [hrw]
      refine ih (initial ++ [a.2]) ?_
      rw [List.nodup_append]
      refine ⟨h, List.nodup_singleton a.2, ?_⟩
      intro y hy hmem
      rw [List.mem_singleton] at hmem
      exact ha (hmem ▸ hy)

/-- Facts about a quantity-1 plan under an always-succeeding I/O oracle:
every file is copied once under its base name, with no errors. -/
theorem copyFiles_allOk_q1 (files : List Path) :
    copyFilesBasedOnQuantity (fun _ _ => true) files 1 =
      (files.length, 0, files.map (fun f => (f, baseName f))) := by
  induction files with
  | nil => rfl
  | cons f rest ih =>
    simp [copyFilesBasedOnQuantity, ih, copyOrdinals, destNamesFor, Nat.add_comm]

/-- C10: the copy engine performs no existence check at a destination path:
with quantity 1 and no I/O failures every source file is copied under its
base name even when the name is already taken, a copy onto an existing name
replaces it in the directory listing (modelled `shutil.copy2` overwrite
semantics), and when two source files share a base name the number of
distinct files present afterwards is strictly smaller than the returned
copied count. -/
theorem c10_silent_overwrite (files : List Path)
    (hdup : ¬ ((files.map baseName).Nodup)) :
    (copyFilesBasedOnQuantity (fun _ _ => true) files 1).1 = files.length ∧
    (copyFilesBasedOnQuantity (fun _ _ => true) files 1).2.1 = 0 ∧
    (copyFilesBasedOnQuantity (fun _ _ => true) files 1).2.2.map Prod.snd =
      files.map baseName ∧
    (∀ (initial : List String) (x : String),
      x ∈ applyCopies (copyFilesBasedOnQuantity (fun _ _ => true) files 1).2.2 initial ↔
        x ∈ initial ∨ x ∈ files.map baseName) ∧
    (applyCopies (copyFilesBasedOnQuantity (fun _ _ => true) files 1).2.2 []).length <
      (copyFilesBasedOnQuantity (fun _ _ => true) files 1).1 := by
  have hcount : (copyFilesBasedOnQuantity (fun _ _ => true) files 1).1 = files.length := by
    rw [copyFiles_allOk_q1]
  have herr : (copyFilesBasedOnQuantity (fun _ _ => true) files 1).2.1 = 0 := by
    rw [copyFiles_allOk_q1]
  have hnames : (copyFilesBasedOnQuantity (fun _ _ => true) files 1).2.2.map Prod.snd =
      files.map baseName := by
    rw [copyFiles_allOk_q1]
    simp [List.map_map]
  refine ⟨hcount, herr, hnames, ?_, ?_⟩
  · intro initial x
    rw [applyCopies_mem, hnames]
  · have hLnd : (applyCopies
        (copyFilesBasedOnQuantity (fun _ _ => true) files 1).2.2 []).Nodup :=
      applyCopies_nodup _ [] List.nodup_nil
    have hmem : ∀ x, x ∈ applyCopies
        (copyFilesBasedOnQuantity (fun _ _ => true) files 1).2.2 [] ↔
        x ∈ files.map baseName := by
      intro x
      rw [applyCopies_mem, hnames]
      simp
    have hsub : (applyCopies
        (copyFilesBasedOnQuantity (fun _ _ => true) files 1).2.2 []).toFinset ⊆
        (files.map baseName).dedup.toFinset := by
      intro x hx
      rw [List.mem_toFinset] at hx
      rw [List.mem_toFinset, List.mem_dedup]
      exact (hmem x).mp hx
    have hle : (applyCopies
        (copyFilesBasedOnQuantity (fun _ _ => true) files 1).2.2 []).length ≤
        (files.map baseName).dedup.length := by
      have hcard := Finset.card_le_card hsub
      rwa [List.toFinset_card_of_nodup hLnd,
        List.toFinset_card_of_nodup (List.nodup_dedup (files.map baseName))] at hcard
    have hlt : (files.map baseName).dedup.length < (files.map baseName).length := by
      rcases Nat.lt_or_ge (files.map baseName).dedup.length
          (files.map baseName).length with h | h
      · exact h
      · have hlen : (files.map baseName).dedup.length = (files.map baseName).length :=
          le_antisymm ((List.dedup_sublist (files.map baseName)).length_le) h
        have heq : (files.map baseName).dedup = files.map baseName :=
          (List.dedup_sublist (files.map baseName)).eq_of_length hlen
        exact absurd (heq ▸ List.nodup_dedup (files.map baseName)) hdup
    rw [hcount]
    calc (applyCopies (copyFilesBasedOnQuantity (fun _ _ => true) files 1).2.2 []).length
        ≤ (files.map baseName).dedup.length := hle
      _ < (files.map baseName).length := hlt
      _ = files.length := List.length_map files baseName

/-- Witness for C10 at a concrete input: two source files both named
`x.dwg`; the plan reports two copies but only one distinct destination file
exists afterwards. -/
theorem c10_silent_overwrite_witness :
    (¬ ((([["p", "x.dwg"], ["q", "x.dwg"]] : List Path).map baseName).Nodup)) ∧
    (applyCopies
        (copyFilesBasedOnQuantity (fun _ _ => true)
          [["p", "x.dwg"], ["q", "x.dwg"]] 1).2.2 []).length <
      (copyFilesBasedOnQuantity (fun _ _ => true)
        [["p", "x.dwg"], ["q", "x.dwg"]] 1).1 :=
  ⟨by decide,
   (c10_silent_overwrite [["p", "x.dwg"], ["q", "x.dwg"]] (by decide)).2.2.2.2⟩

/-- C7 (amended): the `files_copied` counter moves only when a record
reaches the place step, but `files_processed` is incremented for every
record that passes validation, before the locate step runs: a record whose
locate step returns an empty result increments both `files_processed` and
`files_not_found`. -/
theorem c7_processed_before_locate
    (locate : String → List Path) (mkdirOk : Bool) (copyOk : Path → String → Bool)
    (productRaw thicknessRaw quantityRaw : String) (q : Int)
    (hp : pyStrip productRaw ≠ "") (ht : pyStrip thicknessRaw ≠ "")
    (hq : parsePyQuantity (pyStrip quantityRaw) = some q) (h1 : 1 ≤ q) :
    (processRow locate mkdirOk copyOk productRaw thicknessRaw quantityRaw).stats.processed
        = 1 ∧
    (locate (pyStrip productRaw) = [] →
      processRow locate mkdirOk copyOk productRaw thicknessRaw quantityRaw =
        ⟨⟨1, 0, 1, 0⟩, true, false, []⟩) ∧
    ((processRow locate mkdirOk copyOk productRaw thicknessRaw quantityRaw).stats.copied
        ≠ 0 →
      locate (pyStrip productRaw) ≠ [] ∧ mkdirOk = true) := by
  have hq1 : ¬ q < 1 := by omega
  by_cases hf : locate (pyStrip productRaw) = []
  · have hrow : processRow locate mkdirOk copyOk productRaw thicknessRaw quantityRaw =
        ⟨⟨1, 0, 1, 0⟩, true, false, []⟩ := by
      simp [processRow, hp, ht, hq, hq1, hf]
    rw [hrow]
    exact ⟨rfl, fun _ => rfl, fun hc => absurd rfl hc⟩
  · have hfe : ¬ (locate (pyStrip productRaw)).isEmpty := by
      simpa [List.isEmpty_iff] using hf
    by_cases hm : mkdirOk
    · have hrow : processRow locate mkdirOk copyOk productRaw thicknessRaw quantityRaw =
          ⟨⟨1, (copyFilesBasedOnQuantity copyOk (locate (pyStrip productRaw)) q.toNat).1,
            0, (copyFilesBasedOnQuantity copyOk (locate (pyStrip productRaw)) q.toNat).2.1⟩,
           true, true, (copyFilesBasedOnQuantity copyOk (locate (pyStrip productRaw)) q.toNat).2.2⟩ := by
        simp [processRow, hp, ht, hq, hq1, hfe, hm]
      rw [hrow]
      exact ⟨rfl, fun hc => absurd hc hf, fun _ => ⟨hf, hm⟩⟩
    · have hrow : processRow locate mkdirOk copyOk productRaw thicknessRaw quantityRaw =
          ⟨⟨1, 0, 0, 1⟩, true, true, []⟩ := by
        simp [processRow, hp, ht, hq, hq1, hfe, hm]
      rw [hrow]
      exact ⟨rfl, fun hc => absurd hc hf, fun hc => absurd rfl hc⟩

/-- Counterexample to C7 as stated: a valid record whose locate step returns
the empty result nevertheless increments `files_processed` — the counter
moves before the place step is ever reached, and the claim that an empty
locate increments only the not-found counter is false. -/
theorem c7_counterexample :
    processRow (fun _ => []) true (fun _ _ => true) "P" "2" "1" =
        ⟨⟨1, 0, 1, 0⟩, true, false, []⟩ ∧
      (processRow (fun _ => []) true (fun _ _ => true) "P" "2" "1").stats.processed = 1 ∧
      (processRow (fun _ => []) true (fun _ _ => true) "P" "2" "1").stats.notFound = 1 := by
  decide

/-- Witness for C7 at a concrete input. -/
theorem c7_processed_before_locate_witness :
    (pyStrip "P" ≠ "" ∧ pyStrip "2" ≠ "" ∧
      parsePyQuantity (pyStrip "3") = some 3 ∧ (1 : Int) ≤ 3) ∧
    (processRow (fun _ => [["f.dwg"]]) true (fun _ _ => true) "P" "2" "3").stats.processed
      = 1 :=
  ⟨⟨by decide, by decide, by decide, by decide⟩,
   (c7_processed_before_locate (fun _ => [["f.dwg"]]) true (fun _ _ => true)
     "P" "2" "3" 3 (by decide) (by decide) (by decide) (by decide)).1⟩

/-- Once `found_files` is non-empty, every remaining root only contributes
its root-level exact matches: the `continue` on line 192 skips strategies
2-3 of each later root but runs its root-level pass first. -/
theorem searchRoots_of_ne_nil (product : String) :
    ∀ (roots : List (String × FSModel)) (found : List Path), found ≠ [] →
      searchRoots product roots found = found ++ allRootLevelMatches product roots := by
  intro roots
  induction roots with
  | nil =>
    intro found _
    simp [searchRoots, allRootLevelMatches]
  | cons r rest ih =>
    intro found h
    obtain ⟨lbl, fs⟩ := r
    have hne : ¬ (found ++ (exactMatchesIn fs product []).map (fun p => lbl :: p)).isEmpty
        = true := by
      rw [List.isEmpty_iff]
      intro hc
      rcases List.append_eq_nil.mp hc with ⟨h1, _⟩
      exact h h1
    simp only [searchRoots, if_neg hne]
    rw [ih _ (fun hc => hne (by rw [hc]; rfl))]
    simp [allRootLevelMatches, List.append_assoc]

/-- C1 (amended): the first root whose breadth-first or partial-name pass
produces the first match does terminate the search, and later roots
contribute nothing; but a match found by the root-level exact pass does not
terminate the root loop — the root-level pass still runs on every later
root, and root-level matches of all roots are merged into the result in
root order. -/
theorem c1_first_root_wins_except_root_level (product : String)
    (roots : List (String × FSModel)) :
    findSourceFiles product roots = firstWinsSpec product roots := by
  induction roots with
  | nil => rfl
  | cons r rest ih =>
    obtain ⟨lbl, fs⟩ := r
    by_cases h1 : ((exactMatchesIn fs product []).map (fun p => lbl :: p)).isEmpty
    · by_cases h2 : ((bfsSearch fs product).1.map (fun p => lbl :: p)).isEmpty
      · by_cases h3 : ((strategy3 fs product).map (fun p => lbl :: p)).isEmpty
        · show searchRoots product ((lbl, fs) :: rest) [] = _
          simp only [searchRoots, firstWinsSpec, List.nil_append, h1, h2, h3, if_true]
          rw [List.isEmpty_iff.mp h3]
          exact ih
        · show searchRoots product ((lbl, fs) :: rest) [] = _
          simp [searchRoots, firstWinsSpec, h1, h2, h3]
      · show searchRoots product ((lbl, fs) :: rest) [] = _
        simp [searchRoots, firstWinsSpec, h1, h2]
    · show searchRoots product ((lbl, fs) :: rest) [] = _
      simp only [searchRoots, firstWinsSpec, List.nil_append, if_neg h1]
      rw [searchRoots_of_ne_nil product rest _
        (fun hc => h1 (by rw [List.isEmpty_iff, ← hc]))]

/-- Decimal numerals of the ordinals used by the copy prefixes contain no
underscore. -/
theorem repr_no_underscore : ∀ i < 51, '_' ∉ (toString i).data := by decide

/-- Decimal numerals of the ordinals used by the copy prefixes are pairwise
distinct. -/
theorem repr_inj_le_50 : ∀ i < 51, ∀ j < 51, toString i = toString j → i = j := by
  decide

/-- Splitting at the first underscore is unambiguous when neither left part
contains one. -/
theorem append_underscore_inj :
    ∀ (a b c d : List Char), '_' ∉ a → '_' ∉ c →
      a ++ '_' :: b = c ++ '_' :: d → a = c ∧ b = d := by
  intro a
  induction a with
  | nil =>
    intro b c d _ hc h
    cases c with
    | nil => simpa using h
    | cons y ys =>
      simp only [List.nil_append, List.cons_append, List.cons.injEq] at h
      have hy : ('_' : Char) ∈ y :: ys := by
        rw [← h.1]
        exact List.mem_cons_self '_' ys
      exact absurd hy hc
  | cons x xs ih =>
    intro b c d ha hc h
    cases c with
    | nil =>
      simp only [List.cons_append, List.nil_append, List.cons.injEq] at h
      have hx : ('_' : Char) ∈ x :: xs := by
        rw [h.1]
        exact List.mem_cons_self '_' xs
      exact absurd hx ha
    | cons y ys =>
      simp only [List.cons_append, List.cons.injEq] at h
      have ha2 : '_' ∉ xs := fun hm => ha (List.mem_cons_of_mem x hm)
      have hc2 : '_' ∉ ys := fun hm => hc (List.mem_cons_of_mem y hm)
      obtain ⟨h3, h4⟩ := ih b ys d ha2 hc2 h.2
      exact ⟨by rw [h.1, h3], h4⟩

/-- Two ordinal-prefixed destination names coincide exactly when both the
ordinal and the base name coincide, for ordinals up to 50. -/
theorem prefixed_name_inj (i j : Nat) (b d : String) (hi : i < 51) (hj : j < 51)
    (h : toString i ++ "_" ++ b = toString j ++ "_" ++ d) : i = j ∧ b = d := by
  have hdata := congrArg String.data h
  have hu : ("_" : String).data = ['_'] := rfl
  simp only [String.data_append, hu, List.append_assoc, List.singleton_append] at hdata
  obtain ⟨h3, h4⟩ := append_underscore_inj _ _ _ _
    (repr_no_underscore i hi) (repr_no_underscore j hj) hdata
  exact ⟨repr_inj_le_50 i hi j hj (String.ext h3), String.ext h4⟩

/-- For quantity 1 the planned destination names are exactly the source base
names. -/
theorem plannedDestNames_one (files : List Path) :
    plannedDestNames files 1 = files.map baseName := by
  unfold plannedDestNames
  have hfn : (fun f : Path => destNamesFor f 1) = fun f : Path => [baseName f] :=
    funext (fun _ => rfl)
  rw [hfn, flatMap_single]

/-- The planned destination names of a copy plan are pairwise distinct when
the source base names are, for quantities up to 50. -/
theorem plannedDestNames_nodup (files : List Path) (q : Nat)
    (hnd : (files.map baseName).Nodup) (hq : q ≤ 50) :
    (plannedDestNames files q).Nodup := by
  by_cases h1 : q = 1
  · rw [h1, plannedDestNames_one]
    exact hnd
  · unfold plannedDestNames
    rw [List.nodup_flatMap]
    constructor
    · intro f _
      simp only [destNamesFor, if_neg h1]
      refine List.Nodup.map_on ?_ (List.nodup_range' 1 q)
      intro x hx y hy hxy
      obtain ⟨ix, hix, rfl⟩ := List.mem_range'.mp hx
      obtain ⟨iy, hiy, rfl⟩ := List.mem_range'.mp hy
      exact (prefixed_name_inj _ _ (baseName f) (baseName f)
        (by omega) (by omega) hxy).1
    · have hpw : files.Pairwise (fun a b => baseName a ≠ baseName b) :=
        List.pairwise_map.mp hnd
      refine hpw.imp ?_
      intro a b hab
      intro x hxa hxb
      simp only [destNamesFor, if_neg h1] at hxa hxb
      obtain ⟨i, hi, rfl⟩ := List.mem_map.mp hxa
      obtain ⟨j, hj, hEq⟩ := List.mem_map.mp hxb
      obtain ⟨ij, hijn, rfl⟩ := List.mem_range'.mp hi
      obtain ⟨jj, hjjn, rfl⟩ := List.mem_range'.mp hj
      exact hab ((prefixed_name_inj _ _ (baseName b) (baseName a)
        (by omega) (by omega) hEq).2.symm)

/-- Characterization of the whole copy plan under an always-succeeding I/O
oracle: every planned destination name of every file is attempted, the
copied count is the total number of planned names, and no error is
tallied. -/
theorem copyFiles_allOk (files : List Path) (q : Nat) :
    copyFilesBasedOnQuantity (fun _ _ => true) files q =
      ((files.map (fun f => (destNamesFor f q).length)).sum, 0,
       files.flatMap (fun f => (destNamesFor f q).map (fun n => (f, n)))) := by
  induction files with
  | nil => rfl
  | cons f rest ih =>
    have hord : ∀ names : List String,
        copyOrdinals (fun _ _ => true) f names =
          (names.length, 0, names.map (fun n => (f, n))) := by
      intro names
      induction names with
      | nil => rfl
      | cons n rest2 ih2 => simp [copyOrdinals, ih2, Nat.add_comm]
    simp [copyFilesBasedOnQuantity, ih, hord]

/-- Helper: summing a constant over a list multiplies it by the length. -/
theorem sum_map_constNat {α : Type} (l : List α) (c : Nat) :
    (l.map (fun _ => c)).sum = c * l.length := by
  induction l with
  | nil => simp
  | cons a rest ih =>
    simp only [List.map_cons, List.sum_cons, ih, List.length_cons, Nat.mul_succ]
    omega

/-- C3 (amended): for located source files whose base names are pairwise
distinct and a quantity `1 ≤ N ≤ 50` with no I/O failures, the plan attempts
exactly the planned destination names: `len(files)` copies named identically
to their sources for `N = 1`, and `N * len(files)` copies named
`"1_<name>"` .. `"N_<name>"` per source file for `N > 1`, independently per
source file, with no collision among the destination names and no error.
The distinct-base-names hypothesis is necessary: two located files sharing a
base name land on the same destination name (see the counterexample). -/
theorem c3_quantity_law (files : List Path) (q : Nat)
    (_hne : files ≠ []) (hnd : (files.map baseName).Nodup)
    (_h1q : 1 ≤ q) (h50 : q ≤ 50) :
    (copyFilesBasedOnQuantity (fun _ _ => true) files q).2.2.map Prod.snd =
      plannedDestNames files q ∧
    (copyFilesBasedOnQuantity (fun _ _ => true) files q).1 =
      (if q = 1 then files.length else q * files.length) ∧
    (copyFilesBasedOnQuantity (fun _ _ => true) files q).2.1 = 0 ∧
    (plannedDestNames files q).Nodup ∧
    (q = 1 → plannedDestNames files q = files.map baseName) := by
  refine ⟨?_, ?_, ?_, plannedDestNames_nodup files q hnd h50,
    fun hq1 => by rw [hq1, plannedDestNames_one]⟩
  · rw [copyFiles_allOk]
    show (files.flatMap (fun f => (destNamesFor f q).map (fun n => (f, n)))).map Prod.snd
      = plannedDestNames files q
    rw [List.map_flatMap]
    unfold plannedDestNames
    refine List.flatMap_congr (fun f _ => ?_)
    rw [List.map_map]
    exact List.map_id _
  · rw [copyFiles_allOk]
    show (files.map (fun f => (destNamesFor f q).length)).sum =
      if q = 1 then files.length else q * files.length
    by_cases hq1 : q = 1
    · rw [if_pos hq1, hq1]
      have hlen : (fun f : Path => (destNamesFor f 1).length) = fun _ : Path => 1 :=
        funext (fun _ => rfl)
      rw [hlen, sum_map_one]
    · rw [if_neg hq1]
      have hlen : (fun f : Path => (destNamesFor f q).length) = fun _ : Path => q := by
        funext f
        rw [destNamesFor, if_neg hq1, List.length_map, List.length_range']
      rw [hlen, sum_map_constNat]
  · rw [copyFiles_allOk]

/-- Counterexample to C3 as stated: two located source files with the same
base name and quantity 1.  Two copies are reported, but both land on the
same destination name, so only one distinct destination file results — not
`len(files)`. -/
theorem c3_counterexample :
    (copyFilesBasedOnQuantity (fun _ _ => true) [["p", "x.dwg"], ["q", "x.dwg"]] 1).1
        = 2 ∧
      (copyFilesBasedOnQuantity (fun _ _ => true)
          [["p", "x.dwg"], ["q", "x.dwg"]] 1).2.2.map Prod.snd
        = ["x.dwg", "x.dwg"] ∧
      ((copyFilesBasedOnQuantity (fun _ _ => true)
          [["p", "x.dwg"], ["q", "x.dwg"]] 1).2.2.map Prod.snd).dedup.length = 1 := by
  decide

/-- Witness for C3 at a concrete input: two distinct-named files with
quantity 3 give six pairwise-distinct destination names and a copied count
of 6. -/
theorem c3_quantity_law_witness :
    (([["s", "a.dwg"], ["t", "b.dwg"]] : List Path) ≠ [] ∧
      (([["s", "a.dwg"], ["t", "b.dwg"]] : List Path).map baseName).Nodup ∧
      1 ≤ 3 ∧ 3 ≤ 50) ∧
    (copyFilesBasedOnQuantity (fun _ _ => true) [["s", "a.dwg"], ["t", "b.dwg"]] 3).1 =
      (if 3 = 1 then ([["s", "a.dwg"], ["t", "b.dwg"]] : List Path).length
       else 3 * ([["s", "a.dwg"], ["t", "b.dwg"]] : List Path).length) ∧
    (plannedDestNames [["s", "a.dwg"], ["t", "b.dwg"]] 3).Nodup :=
  ⟨⟨by decide, by decide, by decide, by decide⟩,
   (c3_quantity_law [["s", "a.dwg"], ["t", "b.dwg"]] 3
      (by decide) (by decide) (by decide) (by decide)).2.1,
   (c3_quantity_law [["s", "a.dwg"], ["t", "b.dwg"]] 3
      (by decide) (by decide) (by decide) (by decide)).2.2.2.1⟩

/-- Path resolution distributes over path concatenation. -/
theorem lookup_append : ∀ (p : Path) (t : FSTree) (q : Path),
    FSTree.lookup t (p ++ q) = (FSTree.lookup t p).bind (fun s => FSTree.lookup s q) := by
  intro p
  induction p with
  | nil => intro t q; simp [FSTree.lookup]
  | cons n p2 ih =>
    intro t q
    cases t with
    | node fls ds =>
      cases hf : ds.find? (fun x => x.1 == n) with
      | none => simp [FSTree.lookup, hf]
      | some x => simp [FSTree.lookup, hf, ih x.2 q]

/-- Every tree has at least one directory at any depth bound. -/
theorem dirCountToDepth_pos (k : Nat) (t : FSTree) : 1 ≤ dirCountToDepth k t := by
  cases k with
  | zero => simp [dirCountToDepth]
  | succ m =>
    cases t with
    | node fls ds =>
      simp only [dirCountToDepth]
      exact Nat.le_add_right 1 _

/-- Well-formedness descends along path resolution. -/
theorem wfTo_lookup : ∀ (p : Path) (t : FSTree) (k : Nat) (s : FSTree),
    wfTo k t = true → FSTree.lookup t p = some s → p.length ≤ k →
    wfTo (k - p.length) s = true := by
  intro p
  induction p with
  | nil =>
    intro t k s hw hl _
    have : t = s := by
      simpa [FSTree.lookup] using hl
    rw [← this]
    simpa using hw
  | cons n p2 ih =>
    intro t k s hw hl hlen
    cases t with
    | node fls ds =>
      cases k with
      | zero => exact absurd hlen (by simp)
      | succ m =>
        simp only [wfTo, Bool.and_eq_true] at hw
        cases hf : ds.find? (fun x => x.1 == n) with
        | none => simp [FSTree.lookup, hf] at hl
        | some x =>
          simp only [FSTree.lookup, hf] at hl
          have hx : x ∈ ds := List.mem_of_find?_eq_some hf
          have hwx : wfTo m x.2 = true := List.all_eq_true.mp hw.2 x hx
          have hrec := ih x.2 m s hwx hl (by simpa using hlen)
          simpa [Nat.succ_sub_succ] using hrec

/-- With distinct sibling names, `find?` on a name retrieves exactly the
association-list entry carrying it. -/
theorem find_self : ∀ (ds : List (String × FSTree)),
    (ds.map (fun x => x.1)).Nodup →
    ∀ x ∈ ds, ds.find? (fun y => y.1 == x.1) = some x := by
  intro ds
  induction ds with
  | nil => intro _ x hx; cases hx
  | cons a rest ih =>
    intro hnd x hx
    have hnd0 : (a.1 :: rest.map (fun x => x.1)).Nodup := by
      simpa only [List.map_cons] using hnd
    have hnd1 := List.nodup_cons.mp hnd0
    rcases List.mem_cons.mp hx with h | h
    · subst h
      simp [List.find?]
    · have hne1 : a.1 ≠ x.1 := fun he =>
        hnd1.1 (he ▸ List.mem_map_of_mem (fun y => y.1) h)
      have hne : (a.1 == x.1) = false := beq_eq_false_iff_ne.mpr hne1
      simp [List.find?, hne, ih hnd1.2 x h]

/-- Listing the subdirectories of a resolvable directory. -/
theorem subdirNames_eq (t : FSTree) (p : Path) (fls : List String)
    (ds : List (String × FSTree))
    (hl : FSTree.lookup t p = some (FSTree.node fls ds)) :
    (t.toModel).subdirNames p = ds.map (fun x => x.1) := by
  simp [FSTree.toModel, hl]

/-- Listing the files of a resolvable directory. -/
theorem fileNames_eq (t : FSTree) (p : Path) (fls : List String)
    (ds : List (String × FSTree))
    (hl : FSTree.lookup t p = some (FSTree.node fls ds)) :
    (t.toModel).fileNames p = fls := by
  simp [FSTree.toModel, hl]

/-- A listed subdirectory of a resolvable directory is itself resolvable. -/
theorem lookup_child_isSome (t : FSTree) (p : Path) (n : String)
    (hp : (FSTree.lookup t p).isSome = true)
    (hn : n ∈ (t.toModel).subdirNames p) :
    (FSTree.lookup t (p ++ [n])).isSome = true := by
  obtain ⟨s, hs⟩ := Option.isSome_iff_exists.mp hp
  cases s with
  | node fls ds =>
    rw [lookup_append p t [n], hs]
    rw [subdirNames_eq t p fls ds hs] at hn
    obtain ⟨x, hx, hxn⟩ := List.mem_map.mp hn
    have hfs : (ds.find? (fun y => y.1 == n)).isSome = true :=
      List.find?_isSome.mpr ⟨x, hx, by simp [hxn]⟩
    obtain ⟨y, hy⟩ := Option.isSome_iff_exists.mp hfs
    simp [FSTree.lookup, hy]

/-- The queue entries created for the subdirectories of a well-formed entry
are themselves well-formed. -/
theorem children_entryOk (t : FSTree) (d : Path) (k : Nat)
    (hok : entryOk t (d, k)) (hk : k < 6) :
    ∀ e ∈ ((t.toModel).subdirNames d).map (fun n => (d ++ [n], k + 1)),
      entryOk t e := by
  intro e he
  obtain ⟨n, hn, rfl⟩ := List.mem_map.mp he
  obtain ⟨hsome, hlen, _⟩ := hok
  have hlen2 : k = d.length := hlen
  refine ⟨lookup_child_isSome t d n hsome hn, ?_, ?_⟩
  · show k + 1 = (d ++ [n]).length
    simp only [List.length_append, List.length_cons, List.length_nil]
    omega
  · show k + 1 ≤ 6
    omega

/-- The subtree found under a child name of a well-formed directory. -/
theorem subtreeD_child (t : FSTree) (p : Path) (fls : List String)
    (ds : List (String × FSTree)) (x : String × FSTree)
    (hl : FSTree.lookup t p = some (FSTree.node fls ds))
    (hnd : (ds.map (fun y => y.1)).Nodup) (hx : x ∈ ds) :
    subtreeD t (p ++ [x.1]) = x.2 := by
  unfold subtreeD
  rw [lookup_append p t [x.1], hl]
  simp [FSTree.lookup, find_self ds hnd x hx]

/-- Potential bookkeeping for one processed queue entry: the entries pushed
for its subdirectories account for its whole potential but the one unit
spent on the entry itself. -/
theorem qpot_children (t : FSTree) (d : Path) (k : Nat) (fls : List String)
    (ds : List (String × FSTree))
    (hl : FSTree.lookup t d = some (FSTree.node fls ds))
    (hnd : (ds.map (fun y => y.1)).Nodup) (hk : k < 6) :
    ((((t.toModel).subdirNames d).map (fun n => (d ++ [n], k + 1))).map
        (entryPot t)).sum + 1 = entryPot t (d, k) := by
  rw [subdirNames_eq t d fls ds hl]
  have hmapeq : (((ds.map (fun x => x.1)).map (fun n => (d ++ [n], k + 1))).map
        (entryPot t))
      = ds.map (fun x => dirCountToDepth (6 - (k + 1)) x.2) := by
    rw [List.map_map, List.map_map]
    refine List.map_congr_left (fun x hx => ?_)
    show entryPot t (d ++ [x.1], k + 1) = _
    unfold entryPot
    rw [subtreeD_child t d fls ds x hl hnd hx]
  rw [hmapeq]
  unfold entryPot subtreeD
  rw [hl]
  simp only [Option.getD_some]
  have h6 : 6 - k = (6 - (k + 1)) + 1 := by omega
  rw [h6]
  simp only [dirCountToDepth]
  omega

/-- Every resolvable directory within the depth bound occurs in the
directory enumeration `allDirsTo`. -/
theorem mem_allDirsTo : ∀ (p : Path) (t : FSTree) (k : Nat),
    (FSTree.lookup t p).isSome = true → p.length ≤ k → p ∈ allDirsTo k t := by
  intro p
  induction p with
  | nil =>
    intro t k _ _
    cases k with
    | zero => simp [allDirsTo]
    | succ m =>
      cases t with
      | node fls ds => simp [allDirsTo]
  | cons n p2 ih =>
    intro t k hs hlen
    cases t with
    | node fls ds =>
      cases k with
      | zero => exact absurd hlen (by simp)
      | succ m =>
        obtain ⟨s, hsome⟩ := Option.isSome_iff_exists.mp hs
        cases hf : ds.find? (fun y => y.1 == n) with
        | none => simp [FSTree.lookup, hf] at hsome
        | some x =>
          simp only [FSTree.lookup, hf] at hsome
          have hx : x ∈ ds := List.mem_of_find?_eq_some hf
          have hpx := List.find?_some hf
          have hxn : x.1 = n := by simpa using hpx
          have hmem := ih x.2 m (by rw [hsome]; rfl) (by simpa using hlen)
          show n :: p2 ∈ allDirsTo (m + 1) (FSTree.node fls ds)
          simp only [allDirsTo]
          refine List.mem_cons_of_mem _ ?_
          rw [List.mem_flatMap]
          exact ⟨x, hx, List.mem_map.mpr ⟨p2, hmem, by rw [hxn]⟩⟩

/-- A file name is a candidate exact name precisely when the exact-name test
accepts it. -/
theorem mem_candidateNames (product n : String) :
    n ∈ candidateNames product ↔ isExactNameFor product n = true := by
  simp [candidateNames, isExactNameFor, beq_iff_eq]

/-- An exact candidate name present in a directory appears among that
directory's exact matches. -/
theorem mem_exactMatchesIn (fs : FSModel) (product : String) (d : Path)
    (n : String) (hc : isExactNameFor product n = true)
    (hf : n ∈ fs.fileNames d) :
    d ++ [n] ∈ exactMatchesIn fs product d := by
  simp only [exactMatchesIn]
  rw [List.mem_filterMap]
  refine ⟨n, (mem_candidateNames product n).mpr hc, ?_⟩
  rw [if_pos (List.elem_iff.mpr hf)]

/-- A directory with no exactly matching file contributes no exact
matches. -/
theorem exactMatchesIn_eq_nil (fs : FSModel) (product : String) (d : Path)
    (h : ∀ n ∈ fs.fileNames d, isExactNameFor product n = false) :
    exactMatchesIn fs product d = [] := by
  simp only [exactMatchesIn]
  rw [List.filterMap_eq_nil_iff]
  intro n hn
  rw [if_neg]
  intro hc
  have hmem : n ∈ fs.fileNames d := List.elem_iff.mp hc
  have := h n hmem
  rw [(mem_candidateNames product n).mp hn] at this
  cases this

/-- Every directory the breadth-first loop processes over a well-formed
queue exists in the tree and lies at depth at most 6. -/
theorem visits_sound (t : FSTree) :
    ∀ (fuel : Nat) (Q : List (Path × Nat)),
      (∀ e ∈ Q, entryOk t e) →
      ∀ d ∈ bfsVisits t.toModel fuel Q,
        (FSTree.lookup t d).isSome = true ∧ d.length ≤ 6 := by
  intro fuel
  induction fuel with
  | zero =>
    intro Q _ d hd
    simp [bfsVisits] at hd
  | succ m ih =>
    intro Q hQ d hd
    cases Q with
    | nil => simp [bfsVisits] at hd
    | cons e0 rest =>
      obtain ⟨dir, depth⟩ := e0
      have hok := hQ (dir, depth) (List.mem_cons_self _ _)
      have hlen : depth = dir.length := hok.2.1
      have h6 : depth ≤ 6 := hok.2.2
      have hd7 : ¬ 7 ≤ depth := by omega
      rw [bfsVisits, if_neg hd7] at hd
      rcases List.mem_cons.mp hd with h | h
      · subst h
        exact ⟨hok.1, by omega⟩
      · have hrest : ∀ e ∈ rest, entryOk t e :=
          fun e he => hQ e (List.mem_cons_of_mem _ he)
        by_cases hlt : depth < 6
        · rw [if_pos hlt] at h
          refine ih _ ?_ d h
          intro e he
          rcases List.mem_append.mp he with h2 | h2
          · exact hrest e h2
          · exact children_entryOk t dir depth hok hlt e h2
        · rw [if_neg hlt] at h
          exact ih rest hrest d h

/-- Completeness of the bounded traversal: when the whole queue potential
fits in the remaining fuel, every directory reachable within the depth
bound from some queue entry is eventually processed. -/
theorem visits_complete (t : FSTree) (target : Path) (hwf : wfTo 6 t = true) :
    ∀ (fuel : Nat) (Q : List (Path × Nat)),
      (∀ e ∈ Q, entryOk t e) →
      qpot t Q ≤ fuel →
      (∃ e ∈ Q, ∃ rem : Path, e.1 ++ rem = target ∧ e.2 + rem.length ≤ 6) →
      (FSTree.lookup t target).isSome = true →
      target ∈ bfsVisits t.toModel fuel Q := by
  intro fuel
  induction fuel with
  | zero =>
    intro Q _ hpot hwit _
    obtain ⟨e, heQ, _⟩ := hwit
    cases Q with
    | nil => cases heQ
    | cons e0 rest =>
      exfalso
      have h1 : 1 ≤ entryPot t e0 := dirCountToDepth_pos _ _
      have h2 : entryPot t e0 + (rest.map (entryPot t)).sum ≤ 0 := by
        have : qpot t (e0 :: rest) = entryPot t e0 + (rest.map (entryPot t)).sum := by
          unfold qpot
          simp [List.sum_cons]
        omega
      omega
  | succ m ih =>
    intro Q hQ hpot hwit hlook
    cases Q with
    | nil =>
      obtain ⟨e, heQ, _⟩ := hwit
      cases heQ
    | cons e0 rest =>
      obtain ⟨dir, depth⟩ := e0
      have hok := hQ (dir, depth) (List.mem_cons_self _ _)
      have hlen : depth = dir.length := hok.2.1
      have h6 : depth ≤ 6 := hok.2.2
      have hd7 : ¬ 7 ≤ depth := by omega
      have hrest : ∀ e ∈ rest, entryOk t e :=
        fun e he => hQ e (List.mem_cons_of_mem _ he)
      have hpothead : qpot t ((dir, depth) :: rest) =
          entryPot t (dir, depth) + qpot t rest := by
        unfold qpot
        simp [List.sum_cons]
      have hpot1 : 1 ≤ entryPot t (dir, depth) := dirCountToDepth_pos _ _
      obtain ⟨s, hs⟩ := Option.isSome_iff_exists.mp hok.1
      rw [bfsVisits, if_neg hd7]
      obtain ⟨e, heQ, rem, hreme, hremlen⟩ := hwit
      by_cases hlt : depth < 6
      · rw [if_pos hlt]
        cases s with
        | node fls ds =>
          have hwfs := wfTo_lookup dir t 6 (FSTree.node fls ds) hwf hs (by omega)
          have hm2 : 6 - dir.length = (5 - dir.length) + 1 := by omega
          rw [hm2] at hwfs
          simp only [wfTo, Bool.and_eq_true] at hwfs
          have hnd : (ds.map (fun y => y.1)).Nodup := of_decide_eq_true hwfs.1
          have hchildren := qpot_children t dir depth fls ds hs hnd hlt
          have hQ2 : ∀ e2 ∈ rest ++
              ((t.toModel).subdirNames dir).map (fun n => (dir ++ [n], depth + 1)),
              entryOk t e2 := by
            intro e2 he2
            rcases List.mem_append.mp he2 with h2 | h2
            · exact hrest e2 h2
            · exact children_entryOk t dir depth hok hlt e2 h2
          have hpot2 : qpot t (rest ++
              ((t.toModel).subdirNames dir).map (fun n => (dir ++ [n], depth + 1))) ≤ m := by
            have happ : qpot t (rest ++
                ((t.toModel).subdirNames dir).map (fun n => (dir ++ [n], depth + 1))) =
                qpot t rest +
                  ((((t.toModel).subdirNames dir).map
                    (fun n => (dir ++ [n], depth + 1))).map (entryPot t)).sum := by
              unfold qpot
              simp [List.sum_append]
            omega
          rcases List.mem_cons.mp heQ with heq | hmem
          · subst heq
            have hreme2 : dir ++ rem = target := hreme
            have hremlen2 : depth + rem.length ≤ 6 := hremlen
            cases rem with
            | nil =>
              have htd : target = dir := by simpa using hreme2.symm
              rw [htd]
              exact List.mem_cons_self _ _
            | cons n rem2 =>
              have hlook2 : (FSTree.lookup t (dir ++ n :: rem2)).isSome = true := by
                rw [hreme2]
                exact hlook
              rw [lookup_append dir t (n :: rem2), hs] at hlook2
              cases hf : ds.find? (fun y => y.1 == n) with
              | none => simp [FSTree.lookup, hf] at hlook2
              | some x =>
                have hx : x ∈ ds := List.mem_of_find?_eq_some hf
                have hxn : x.1 = n := by simpa using List.find?_some hf
                have hnsub : n ∈ (t.toModel).subdirNames dir := by
                  rw [subdirNames_eq t dir fls ds hs]
                  exact hxn ▸ List.mem_map_of_mem (fun y => y.1) hx
                have hcmem : (dir ++ [n], depth + 1) ∈
                    ((t.toModel).subdirNames dir).map (fun n2 => (dir ++ [n2], depth + 1)) :=
                  List.mem_map_of_mem _ hnsub
                refine List.mem_cons_of_mem _
                  (ih _ hQ2 hpot2 ⟨(dir ++ [n], depth + 1),
                    List.mem_append_right _ hcmem, rem2, ?_, ?_⟩ hlook)
                · show (dir ++ [n]) ++ rem2 = target
                  rw [List.append_assoc, List.singleton_append]
                  exact hreme2
                · show (depth + 1) + rem2.length ≤ 6
                  have hll : (n :: rem2).length = rem2.length + 1 := rfl
                  omega
          · exact List.mem_cons_of_mem _
              (ih _ hQ2 hpot2 ⟨e, List.mem_append_left _ hmem, rem, hreme, hremlen⟩ hlook)
      · rw [if_neg hlt]
        rcases List.mem_cons.mp heQ with heq | hmem
        · subst heq
          have hreme2 : dir ++ rem = target := hreme
          have hremlen2 : depth + rem.length ≤ 6 := hremlen
          have hrem0 : rem = [] := by
            cases rem with
            | nil => rfl
            | cons a b =>
              exfalso
              have hll : (a :: b).length = b.length + 1 := rfl
              omega
          subst hrem0
          have htd : target = dir := by simpa using hreme2.symm
          rw [htd]
          exact List.mem_cons_self _ _
        · have hpot2 : qpot t rest ≤ m := by omega
          exact List.mem_cons_of_mem _
            (ih rest hrest hpot2 ⟨e, hmem, rem, hreme, hremlen⟩ hlook)

/-- An exact candidate name is matchable. -/
theorem matchable_of_exact (product n : String)
    (h : isExactNameFor product n = true) : matchableNameFor product n = true := by
  unfold matchableNameFor
  rw [h]
  rfl

/-- A non-matchable name is not an exact candidate name. -/
theorem not_matchable_exact (product n : String)
    (h : matchableNameFor product n = false) : isExactNameFor product n = false := by
  unfold matchableNameFor at h
  exact (Bool.or_eq_false_iff.mp h).1

/-- A non-matchable name matches no glob pattern of any allowed extension. -/
theorem not_matchable_glob (product n : String)
    (h : matchableNameFor product n = false) :
    ∀ e ∈ extensions, globPartialMatch product e n = false ∧
      globPartialMatch product (upperStr e) n = false := by
  intro e he
  unfold matchableNameFor at h
  have h2 := (Bool.or_eq_false_iff.mp h).2
  rw [List.any_eq_false] at h2
  have h3 := h2 e he
  simp only [Bool.or_eq_true, not_or, Bool.not_eq_true] at h3
  exact h3

/-- A glob pass over a directory with no matching file changes nothing. -/
theorem globAdd_no_match (fs : FSModel) (product ext : String) (d : Path)
    (h : ∀ n ∈ fs.fileNames d, globPartialMatch product ext n = false) :
    ∀ found, globAdd fs product ext d found = found := by
  intro found
  unfold globAdd
  have key : ∀ (l : List String),
      (∀ n ∈ l, globPartialMatch product ext n = false) →
      ∀ acc : List Path,
        l.foldl (fun acc n =>
          if globPartialMatch product ext n && !(acc.contains (d ++ [n])) then
            acc ++ [d ++ [n]]
          else acc) acc = acc := by
    intro l
    induction l with
    | nil => intro _ acc; rfl
    | cons n rest ihl =>
      intro hl acc
      have hn := hl n (List.mem_cons_self _ _)
      simp only [List.foldl_cons]
      rw [if_neg (by simp [hn])]
      exact ihl (fun x hx => hl x (List.mem_cons_of_mem _ hx)) acc
  exact key _ h found

/-- The partial-name fallback of a root whose root directory and first ten
first-level subdirectories hold no matchable file returns nothing. -/
theorem strategy3_eq_nil (fs : FSModel) (product : String)
    (hroot : ∀ n ∈ fs.fileNames [], matchableNameFor product n = false)
    (hsub : ∀ d ∈ (fs.subdirNames []).take 10,
      ∀ n ∈ fs.fileNames [d], matchableNameFor product n = false) :
    strategy3 fs product = [] := by
  have hafter : ∀ (exts : List String), (∀ e ∈ exts, e ∈ extensions) →
      ∀ acc : List Path,
        exts.foldl (fun acc e =>
          globAdd fs product (upperStr e) [] (globAdd fs product e [] acc)) acc = acc := by
    intro exts
    induction exts with
    | nil => intro _ acc; rfl
    | cons e rest ihe =>
      intro hl acc
      have he := hl e (List.mem_cons_self _ _)
      simp only [List.foldl_cons]
      rw [globAdd_no_match fs product e []
            (fun n hn => (not_matchable_glob product n (hroot n hn) e he).1) acc,
          globAdd_no_match fs product (upperStr e) []
            (fun n hn => (not_matchable_glob product n (hroot n hn) e he).2) acc]
      exact ihe (fun x hx => hl x (List.mem_cons_of_mem _ hx)) acc
  have hsubfold : ∀ d : String, (∀ n ∈ fs.fileNames [d], matchableNameFor product n = false) →
      ∀ acc : List Path,
        extensions.foldl (fun acc e => globAdd fs product e [d] acc) acc = acc := by
    intro d hd
    have key : ∀ (exts : List String), (∀ e ∈ exts, e ∈ extensions) →
        ∀ acc : List Path,
          exts.foldl (fun acc e => globAdd fs product e [d] acc) acc = acc := by
      intro exts
      induction exts with
      | nil => intro _ acc; rfl
      | cons e rest ihe =>
        intro hl acc
        simp only [List.foldl_cons]
        rw [globAdd_no_match fs product e [d]
              (fun n hn => (not_matchable_glob product n (hd n hn) e
                (hl e (List.mem_cons_self _ _))).1) acc]
        exact ihe (fun x hx => hl x (List.mem_cons_of_mem _ hx)) acc
    exact key extensions (fun e he => he)
  have hsubdirs : ∀ (dsl : List String),
      (∀ d ∈ dsl, ∀ n ∈ fs.fileNames [d], matchableNameFor product n = false) →
      strategy3Subdirs fs product dsl [] = [] := by
    intro dsl
    induction dsl with
    | nil => intro _; rfl
    | cons d rest ihd =>
      intro hl
      simp only [strategy3Subdirs]
      rw [hsubfold d (hl d (List.mem_cons_self _ _)) []]
      have hemp : (([] : List Path).isEmpty = true) := rfl
      rw [if_pos hemp]
      exact ihd (fun x hx => hl x (List.mem_cons_of_mem _ hx))
  unfold strategy3
  rw [hafter extensions (fun e he => he) []]
  have hemp : (([] : List Path).isEmpty = true) := rfl
  rw [if_pos hemp]
  exact hsubdirs _ (fun d hd => hsub d hd)

/-- Directories enumerated to depth `k` have paths of length at most `k`. -/
theorem length_le_of_mem_allDirsTo : ∀ (k : Nat) (t : FSTree) (p : Path),
    p ∈ allDirsTo k t → p.length ≤ k := by
  intro k
  induction k with
  | zero =>
    intro t p hp
    cases t with
    | node fls ds =>
      simp only [allDirsTo, List.mem_singleton] at hp
      rw [hp]
      simp
  | succ m ihk =>
    intro t p hp
    cases t with
    | node fls ds =>
      simp only [allDirsTo] at hp
      rcases List.mem_cons.mp hp with h | h
      · rw [h]
        simp
      · rw [List.mem_flatMap] at h
        obtain ⟨x, hx, hmap⟩ := h
        obtain ⟨p2, hp2, rfl⟩ := List.mem_map.mp hmap
        have := ihk x.2 p2 hp2
        simp only [List.length_cons]
        omega

/-- C6 (amended): over a single source root given by a finite well-formed
tree holding at most 500 directories (so the per-root visit cap cannot cut
the traversal short — without this proviso the claim fails, see the
counterexample), an identifier whose matchable files all sit at depth
`D = |tdir| + 1` (counting the file itself, so a file directly in the root
has depth 1), with an exactly named file in directory `tdir`: if
`D ≤ max-depth = 7` then `find_source_files` returns that file, and if
`D > 7` it returns the empty result. -/
theorem c6_depth_bound (t : FSTree) (product lbl fname : String) (tdir : Path)
    (hwf : wfTo 6 t = true)
    (hcap : dirCountToDepth 6 t ≤ 500)
    (hfile : (t.toModel).hasFile tdir fname = true)
    (hexact : isExactNameFor product fname = true)
    (honly : ∀ p ∈ allDirsTo 6 t, ∀ n ∈ (t.toModel).fileNames p,
      matchableNameFor product n = true → p.length = tdir.length) :
    (tdir.length + 1 ≤ 7 →
      lbl :: (tdir ++ [fname]) ∈ findSourceFiles product [(lbl, t.toModel)]) ∧
    (8 ≤ tdir.length + 1 → findSourceFiles product [(lbl, t.toModel)] = []) := by
  have hfmem : fname ∈ (t.toModel).fileNames tdir := List.elem_iff.mp hfile
  have hlooktdir : (FSTree.lookup t tdir).isSome = true := by
    cases hl : FSTree.lookup t tdir with
    | none =>
      exfalso
      have hnil : (t.toModel).fileNames tdir = [] := by
        simp [FSTree.toModel, hl]
      rw [hnil] at hfmem
      cases hfmem
    | some s => rfl
  have hrootsome : (FSTree.lookup t []).isSome = true := by
    cases t with
    | node fls ds => rfl
  have hrootmem : ([] : Path) ∈ allDirsTo 6 t :=
    mem_allDirsTo [] t 6 hrootsome (by simp)
  constructor
  · intro hD
    have hD6 : tdir.length ≤ 6 := by omega
    by_cases htd : tdir = []
    · subst htd
      have hs1mem : ([] : Path) ++ [fname] ∈ exactMatchesIn (t.toModel) product [] :=
        mem_exactMatchesIn _ _ _ _ hexact hfmem
      have hmap : lbl :: (([] : Path) ++ [fname]) ∈
          (exactMatchesIn (t.toModel) product []).map (fun p => lbl :: p) :=
        List.mem_map_of_mem _ hs1mem
      show lbl :: (([] : Path) ++ [fname]) ∈ searchRoots product [(lbl, t.toModel)] []
      have hne : ¬ (([] : List Path) ++
          (exactMatchesIn (t.toModel) product []).map (fun p => lbl :: p)).isEmpty
          = true := by
        rw [List.isEmpty_iff, List.nil_append]
        intro hc
        rw [hc] at hmap
        cases hmap
      simp only [searchRoots, if_neg hne]
      rw [List.nil_append]
      exact hmap
    · have hs1 : exactMatchesIn (t.toModel) product [] = [] := by
        apply exactMatchesIn_eq_nil
        intro n hn
        cases hEb : isExactNameFor product n with
        | false => rfl
        | true =>
          exfalso
          have hM := matchable_of_exact product n hEb
          have h0 := honly [] hrootmem n hn hM
          have h0l : (0 : Nat) = tdir.length := h0
          exact htd (List.length_eq_zero.mp h0l.symm)
      have hvisit : tdir ∈ bfsVisits t.toModel 500 [([], 0)] := by
        apply visits_complete t tdir hwf 500 [([], 0)]
        · intro e he
          rcases List.mem_cons.mp he with h | h
          · rw [h]
            exact ⟨hrootsome, rfl, by omega⟩
          · cases h
        · have hq : qpot t [([], 0)] = dirCountToDepth 6 t := by
            unfold qpot entryPot subtreeD
            simp [FSTree.lookup]
          rw [hq]
          exact hcap
        · exact ⟨([], 0), List.mem_cons_self _ _, tdir, List.nil_append tdir, by
            show 0 + tdir.length ≤ 6
            omega⟩
        · exact hlooktdir
      have hbfs : tdir ++ [fname] ∈ (bfsSearch (t.toModel) product).1 := by
        show tdir ++ [fname] ∈ (bfsLoop (t.toModel) product 500 [([], 0)] [] 0).1
        rw [bfsLoop_found_eq, List.nil_append, List.mem_flatMap]
        exact ⟨tdir, hvisit, mem_exactMatchesIn _ _ _ _ hexact hfmem⟩
      have hmem2 : lbl :: (tdir ++ [fname]) ∈
          ((bfsSearch (t.toModel) product).1).map (fun p => lbl :: p) :=
        List.mem_map_of_mem _ hbfs
      have hf2ne : ¬ ((bfsSearch (t.toModel) product).1.map (fun p => lbl :: p)).isEmpty
          = true := by
        rw [List.isEmpty_iff]
        intro hc
        rw [hc] at hmem2
        cases hmem2
      show lbl :: (tdir ++ [fname]) ∈ searchRoots product [(lbl, t.toModel)] []
      have hemp : (([] : List Path) ++
          (exactMatchesIn (t.toModel) product []).map (fun p => lbl :: p)).isEmpty
          = true := by
        rw [hs1]
        rfl
      simp only [searchRoots, if_pos hemp, if_neg hf2ne]
      exact hmem2
  · intro hD8
    have htd7 : 7 ≤ tdir.length := by omega
    have hnomatch : ∀ p ∈ allDirsTo 6 t, ∀ n ∈ (t.toModel).fileNames p,
        matchableNameFor product n = false := by
      intro p hp n hn
      cases hM : matchableNameFor product n with
      | false => rfl
      | true =>
        exfalso
        have heq := honly p hp n hn hM
        have hple : p.length ≤ 6 := length_le_of_mem_allDirsTo 6 t p hp
        omega
    have hs1 : exactMatchesIn (t.toModel) product [] = [] :=
      exactMatchesIn_eq_nil _ _ _
        (fun n hn => not_matchable_exact product n (hnomatch [] hrootmem n hn))
    have hbfsnil : (bfsSearch (t.toModel) product).1 = [] := by
      show (bfsLoop (t.toModel) product 500 [([], 0)] [] 0).1 = []
      rw [bfsLoop_found_eq, List.nil_append, List.eq_nil_iff_forall_not_mem]
      intro x hx
      rw [List.mem_flatMap] at hx
      obtain ⟨d, hd, hxin⟩ := hx
      have hsound := visits_sound t 500 [([], 0)]
        (by
          intro e he
          rcases List.mem_cons.mp he with h | h
          · rw [h]
            exact ⟨hrootsome, rfl, by omega⟩
          · cases h) d hd
      have hdin : d ∈ allDirsTo 6 t := mem_allDirsTo d t 6 hsound.1 hsound.2
      rw [exactMatchesIn_eq_nil _ _ _
        (fun n hn => not_matchable_exact product n (hnomatch d hdin n hn))] at hxin
      cases hxin
    have hsub10mem : ∀ d0 ∈ ((t.toModel).subdirNames []).take 10,
        [d0] ∈ allDirsTo 6 t := by
      intro d0 hd0
      have hd0m : d0 ∈ (t.toModel).subdirNames [] := List.mem_of_mem_take hd0
      have hsm : (FSTree.lookup t ([] ++ [d0])).isSome = true :=
        lookup_child_isSome t [] d0 hrootsome hd0m
      exact mem_allDirsTo [d0] t 6 (by simpa using hsm) (by simp)
    have hs3 : strategy3 (t.toModel) product = [] :=
      strategy3_eq_nil _ _
        (fun n hn => hnomatch [] hrootmem n hn)
        (fun d0 hd0 n hn => hnomatch [d0] (hsub10mem d0 hd0) n hn)
    show searchRoots product [(lbl, t.toModel)] [] = []
    have hemp : (([] : List Path) ++
        (exactMatchesIn (t.toModel) product []).map (fun p => lbl :: p)).isEmpty
        = true := by
      rw [hs1]
      rfl
    simp only [searchRoots, if_pos hemp, hbfsnil, hs3, List.map_nil]
    rfl

/-- Witness for C6 at a concrete input: a tree whose only matchable file
sits at depth 2 (inside first-level directory `a`), well within both caps;
the search finds it. -/
theorem c6_depth_bound_witness :
    (wfTo 6 (FSTree.node [] [("a", FSTree.node ["X.dwg"] [])]) = true ∧
      dirCountToDepth 6 (FSTree.node [] [("a", FSTree.node ["X.dwg"] [])]) ≤ 500 ∧
      ((FSTree.node [] [("a", FSTree.node ["X.dwg"] [])]).toModel).hasFile
        ["a"] "X.dwg" = true ∧
      isExactNameFor "X" "X.dwg" = true) ∧
    "r" :: (["a"] ++ ["X.dwg"]) ∈
      findSourceFiles "X"
        [("r", (FSTree.node [] [("a", FSTree.node ["X.dwg"] [])]).toModel)] :=
  ⟨⟨by decide, by decide, by decide, by decide⟩,
   (c6_depth_bound (FSTree.node [] [("a", FSTree.node ["X.dwg"] [])]) "X" "r" "X.dwg"
      ["a"] (by decide) (by decide) (by decide) (by decide) (by decide)).1 (by decide)⟩

set_option maxRecDepth 40000 in
set_option maxHeartbeats 4000000 in
/-- Counterexample to C6 as stated: under a root with 501 first-level
subdirectories whose only matching file sits in the last of them at depth
2 ≤ max-depth, the 500-directory visit cap exhausts before that directory is
reached and the search comes back empty — depth within the bound does not by
itself guarantee the file is found. -/
theorem c6_counterexample :
    wideFS.hasFile ["d500"] "X.dwg" = true ∧
    isExactNameFor "X" "X.dwg" = true ∧
    (["d500", "X.dwg"] : Path).length ≤ 7 ∧
    findSourceFiles "X" [("r", wideFS)] = [] := by
  refine ⟨by decide, by decide, by decide, ?_⟩
  decide

/-- Counterexample to C1 as stated: the identifier has a root-level exact
match under both configured roots, and the result contains the match from
the second root as well as the first — matches are merged across roots
instead of stopping at the first root. -/
theorem c1_counterexample :
    findSourceFiles "X"
        [("A", (FSTree.node ["X.dwg"] []).toModel),
         ("B", (FSTree.node ["X.dwg"] []).toModel)] =
      [["A", "X.dwg"], ["B", "X.dwg"]] ∧
    ["B", "X.dwg"] ∈ findSourceFiles "X"
        [("A", (FSTree.node ["X.dwg"] []).toModel),
         ("B", (FSTree.node ["X.dwg"] []).toModel)] := by
  decide

end FCM
